import Mathlib

/-!
Verification of the embedded-MQL support module (`src/embeddedMQL.ts`) of the
mql-vscode extension: region detection in YAML host documents, document
masking, the document-lifecycle middleware, and formatting-response
re-indentation.

Host text is modelled as a `String`; the JavaScript `text.split("\n")` and
`lines.join("\n")` are modelled by `splitLines` and `joinLines` over the
character list.  The JavaScript whitespace class (the regex class and
`trim`) is modelled by the ASCII whitespace characters, which covers all
documents considered here.  String lengths are character counts, which agree
with UTF-16 code-unit counts on the documents considered here.
-/

/-- ASCII model of the JavaScript whitespace character class (used by the
regexes and by `trim`). -/
def isWS (c : Char) : Bool :=
  c = ' ' || c = '\t' || c = '\n' || c = '\r' || c = '\x0b' || c = '\x0c'

/-- `line.trim() === ""`: the line consists of whitespace only. -/
def isBlankLine (s : String) : Bool := s.data.all isWS

/-- Length of the leading whitespace run of a line
(`line.match(/^\s*+/)[0].length` with `?? 0` for the impossible miss). -/
def countLeadingWS (s : String) : Nat := (s.data.takeWhile isWS).length

/-- The leading whitespace run itself (`sourceIndent` at source line 318). -/
def leadingWSStr (s : String) : String := String.mk (s.data.takeWhile isWS)

/-- JavaScript `text.split("\n")` on the character list: split at every
newline character, keeping empty pieces. -/
def splitCh : List Char → List (List Char)
  | [] => [[]]
  | c :: cs =>
    if c = '\n' then [] :: splitCh cs
    else
      match splitCh cs with
      | [] => [[c]]
      | p :: ps => (c :: p) :: ps

/-- JavaScript `lines.join("\n")` on character lists. -/
def joinCh : List (List Char) → List Char
  | [] => []
  | [p] => p
  | p :: ps => p ++ '\n' :: joinCh ps

/-- `text.split("\n")` as a list of line strings. -/
def splitLines (s : String) : List String := (splitCh s.data).map String.mk

/-- `lines.join("\n")`. -/
def joinLines (ls : List String) : String := String.mk (joinCh (ls.map String.data))

/-- `EmbeddedMQLRegion` (source lines 16-19): inclusive 0-based line span of
the embedded MQL block. -/
structure EmbeddedMQLRegion where
  startLine : Nat
  endLine : Nat
deriving DecidableEq, Repr

/-- Model of `line.match(/^(\s*)source:\s*[|>][-+]?\s*$/)` (source line 49):
on success returns the captured leading-whitespace length (`keyIndent`).
All quantifiers in that regex are deterministic because none of the literal
characters that follow them is itself whitespace. -/
def matchSourceIntroducer (line : String) : Option Nat :=
  let cs := line.data
  let ws := cs.takeWhile isWS
  let rest := cs.drop ws.length
  if rest.take 7 = "source:".data then
    match (rest.drop 7).dropWhile isWS with
    | c :: rest3 =>
      if c = '|' || c = '>' then
        let rest4 := match rest3 with
          | d :: tl => if d = '-' || d = '+' then tl else rest3
          | [] => ([] : List Char)
        if rest4.all isWS then some ws.length else none
      else none
    | [] => none
  else none

/-- The inner loop of `detectMQLRegion` (source lines 66-85): starting at
line index `j` with current result `endLine`, extend over blank lines and
lines indented at least `contentIndent`, stopping at the first other line. -/
def scanLoop (contentIndent : Nat) : Nat → Nat → List String → Nat
  | _, endLine, [] => endLine
  | j, endLine, l :: tl =>
    if isBlankLine l then scanLoop contentIndent (j+1) j tl
    else if countLeadingWS l < contentIndent then endLine
    else scanLoop contentIndent (j+1) j tl

/-- The outer loop of `detectMQLRegion` (source lines 45-94), with `i` the
index of the head of the remaining list within the whole document.  The
`tl = []` test is the `startLine >= lines.length` early return; the final
`startLine ≤ endLine` test mirrors source line 88 (it always succeeds). -/
def detectFrom (i : Nat) : List String → Option EmbeddedMQLRegion
  | [] => none
  | l :: tl =>
    match matchSourceIntroducer l with
    | none => detectFrom (i+1) tl
    | some keyIndent =>
      if tl = [] then none
      else
        let contentIndent := keyIndent + 2
        let startLine := i + 1
        let endLine := scanLoop contentIndent startLine startLine tl
        if startLine ≤ endLine then some ⟨startLine, endLine⟩
        else detectFrom (i+1) tl

/-- `detectMQLRegion` (source lines 42-97). -/
def detectMQLRegion (text : String) : Option EmbeddedMQLRegion :=
  detectFrom 0 (splitLines text)

/-- The restore loop of `maskDocument` (source lines 116-125), written
index-by-index: a line keeps its text exactly when its index lies in
`[s, e]`, every other line becomes empty. -/
def maskLinesAux (s e : Nat) : Nat → List String → List String
  | _, [] => []
  | n, l :: tl => (if s ≤ n ∧ n ≤ e then l else "") :: maskLinesAux s e (n+1) tl

/-- Line-level masking: either blank every line (no region) or restore the
lines of the region. -/
def maskLines (lines : List String) : Option EmbeddedMQLRegion → List String
  | none => lines.map (fun _ => "")
  | some r => maskLinesAux r.startLine r.endLine 0 lines

/-- `maskDocument` (source lines 104-128). -/
def maskDocument (text : String) (region : Option EmbeddedMQLRegion) : String :=
  joinLines (maskLines (splitLines text) region)

/-- `EmbeddedMQLDocumentCache` (source lines 21-25). -/
structure EmbeddedMQLDocumentCache where
  version : Nat
  region : Option EmbeddedMQLRegion
  maskedText : String
deriving DecidableEq, Repr

/-- A host text document as consumed from the editor. -/
structure Doc where
  uri : String
  languageId : String
  version : Nat
  text : String
deriving DecidableEq, Repr

/-- The module-level mutable state: the document cache map
(`embeddedMQLDocumentCache`, source line 28) and the opened-documents set
(`embeddedMQLOpenedYAMLDocuments`, source line 31), both as point functions
on document identities. -/
structure MQLState where
  cache : String → Option EmbeddedMQLDocumentCache
  openedDocs : String → Bool

/-- The initial module state: empty cache, empty opened set. -/
def emptyMQLState : MQLState where
  cache := fun _ => none
  openedDocs := fun _ => false

/-- `getEmbeddedMQLCachedDocumentData` (source lines 173-196): return the
cached entry when its version matches the document's, otherwise recompute
from the current text, store and return a fresh entry. -/
def getEmbeddedMQLCachedDocumentData (st : MQLState) (doc : Doc) :
    EmbeddedMQLDocumentCache × MQLState :=
  match st.cache doc.uri with
  | some cached =>
    if cached.version = doc.version then (cached, st)
    else
      let region := detectMQLRegion doc.text
      let entry : EmbeddedMQLDocumentCache :=
        ⟨doc.version, region, maskDocument doc.text region⟩
      (entry, { st with cache := fun u => if u = doc.uri then some entry else st.cache u })
  | none =>
    let region := detectMQLRegion doc.text
    let entry : EmbeddedMQLDocumentCache :=
      ⟨doc.version, region, maskDocument doc.text region⟩
    (entry, { st with cache := fun u => if u = doc.uri then some entry else st.cache u })

/-- Messages observable by the MQL language service: synthetic notifications
sent through `client.sendNotification`, and events forwarded through the
middleware's `next`. -/
inductive ServiceMsg where
  | synOpen (uri : String) (version : Nat) (text : String)
  | synChange (uri : String) (version : Nat) (text : String)
  | fwdOpen (uri : String)
  | fwdChange (uri : String)
  | fwdClose (uri : String)
deriving DecidableEq, Repr

/-- The `didOpen` middleware (source lines 206-231). -/
def didOpenH (st : MQLState) (doc : Doc) : MQLState × List ServiceMsg :=
  if doc.languageId ≠ "yaml" then (st, [.fwdOpen doc.uri])
  else if st.openedDocs doc.uri then (st, [])
  else
    let p := getEmbeddedMQLCachedDocumentData st doc
    match p.1.region with
    | none => (p.2, [])
    | some _ =>
      ({ p.2 with openedDocs := fun u => if u = doc.uri then true else p.2.openedDocs u },
       [.synOpen doc.uri doc.version p.1.maskedText])

/-- The `didChange` middleware (source lines 232-278). -/
def didChangeH (st : MQLState) (doc : Doc) : MQLState × List ServiceMsg :=
  if doc.languageId ≠ "yaml" then (st, [.fwdChange doc.uri])
  else
    let p := getEmbeddedMQLCachedDocumentData st doc
    if p.1.region = none ∧ p.2.openedDocs doc.uri = false then (p.2, [])
    else if p.2.openedDocs doc.uri = false then
      match p.1.region with
      | some _ =>
        ({ p.2 with openedDocs := fun u => if u = doc.uri then true else p.2.openedDocs u },
         [.synOpen doc.uri doc.version p.1.maskedText])
      | none => (p.2, [])
    else (p.2, [.synChange doc.uri doc.version p.1.maskedText])

/-- The `didClose` middleware (source lines 279-290): forward the standard
close, then drop the cache entry and the opened-set membership. -/
def didCloseH (st : MQLState) (doc : Doc) : MQLState × List ServiceMsg :=
  if doc.languageId = "yaml" then
    ({ cache := fun u => if u = doc.uri then none else st.cache u,
       openedDocs := fun u => if u = doc.uri then false else st.openedDocs u },
     [.fwdClose doc.uri])
  else (st, [.fwdClose doc.uri])

/-- An editor position (line, UTF-16 character). -/
structure Position where
  line : Nat
  character : Nat
deriving DecidableEq, Repr

/-- An editor range. -/
structure VRange where
  start : Position
  stop : Position
deriving DecidableEq, Repr

/-- A text edit as returned by the formatting provider. -/
structure TextEdit where
  range : VRange
  newText : String
deriving DecidableEq, Repr

/-- `document.lineAt(n).text`; `none` models the exception thrown for an
out-of-range line number (in particular a negative one). -/
def lineAt (doc : Doc) (n : Int) : Option String :=
  if n < 0 then none
  else (splitLines doc.text)[n.toNat]?

/-- `isInsideEmbeddedMQLRegion` (source lines 133-141). -/
def isInsideEmbeddedMQLRegion (pos : Position) : Option EmbeddedMQLRegion → Bool
  | none => false
  | some r => decide (r.startLine ≤ pos.line) && decide (pos.line ≤ r.endLine)

/-- `isInsideValidMQLRegion` (source lines 150-168); it also refreshes the
cache as a side effect of the lookup. -/
def isInsideValidMQLRegion (st : MQLState) (doc : Doc) (pos : Option Position) :
    Bool × MQLState :=
  if doc.languageId ≠ "yaml" then (true, st)
  else
    let p := getEmbeddedMQLCachedDocumentData st doc
    match pos with
    | none => (p.1.region.isSome, p.2)
    | some position => (isInsideEmbeddedMQLRegion position p.1.region, p.2)

/-- Re-indentation of the formatted text (source lines 321-326): prefix every
non-blank line of the service's replacement text with `blockIndent`. -/
def reindent (blockIndent : String) (newText : String) : String :=
  joinLines ((splitLines newText).map (fun l => if isBlankLine l then "" else blockIndent ++ l))

/-- The response-processing part of `provideDocumentFormattingEdits` (source
lines 299-338), run after the service's response arrives.  `Except.error ()`
models a thrown `TypeError`: dereferencing `region.startLine` through the
non-null assertion when the cached region is absent, or `lineAt` on an
out-of-range line.  The response `none` models a `null`/`undefined` edit
list returned by the service. -/
def transformFormattingResponse (st : MQLState) (doc : Doc)
    (response : Option (List TextEdit)) :
    Except Unit (Option (List TextEdit)) × MQLState :=
  match response with
  | none => (.ok none, st)
  | some edits =>
    if edits = [] then (.ok (some edits), st)
    else if doc.languageId = "yaml" then
      let p := getEmbeddedMQLCachedDocumentData st doc
      match p.1.region, edits with
      | none, [_] => (.error (), p.2)
      | none, _ => (.ok none, p.2)
      | some region, [edit] =>
        (match lineAt doc ((region.startLine : Int) - 1) with
         | none => (.error (), p.2)
         | some sourceLineText =>
           let blockIndent := leadingWSStr sourceLineText ++ "  "
           let reindentedText := reindent blockIndent edit.newText
           match lineAt doc (region.endLine : Int) with
           | none => (.error (), p.2)
           | some endLineText =>
             (.ok (some [⟨⟨⟨region.startLine, 0⟩, ⟨region.endLine, endLineText.length⟩⟩,
                          reindentedText⟩]),
              p.2))
      | some _, _ => (.ok none, p.2)
    else (.ok (some edits), st)

/-! ### Properties of line splitting and joining -/

theorem splitCh_ne_nil (cs : List Char) : splitCh cs ≠ [] := by
  induction cs with
  | nil => simp [splitCh]
  | cons c cs ih =>
    simp only [splitCh]
    split
    · simp
    · cases h : splitCh cs with
      | nil => simp
      | cons p ps => simp

theorem not_newline_mem_splitCh (cs : List Char) :
    ∀ p ∈ splitCh cs, '\n' ∉ p := by
  induction cs with
  | nil =>
    intro p hp
    simp [splitCh] at hp
    simp [hp]
  | cons c cs ih =>
    intro p hp
    simp only [splitCh] at hp
    by_cases hc : c = '\n'
    · rw [if_pos hc] at hp
      rcases List.mem_cons.mp hp with h | h
      · simp [h]
      · exact ih p h
    · rw [if_neg hc] at hp
      cases hsp : splitCh cs with
      | nil => exact absurd hsp (splitCh_ne_nil cs)
      | cons q qs =>
        rw [hsp] at hp
        rcases List.mem_cons.mp hp with h | h
        · subst h
          intro hmem
          rcases List.mem_cons.mp hmem with h | h
          · exact hc h.symm
          · exact ih q (by simp [hsp]) h
        · exact ih p (by simp [hsp, h])

theorem splitCh_no_newline (p : List Char) (h : '\n' ∉ p) : splitCh p = [p] := by
  induction p with
  | nil => rfl
  | cons c cs ih =>
    have hc : ¬ c = '\n' := fun e => h (by simp [e])
    have ihcs : splitCh cs = [cs] := ih (fun hm => h (List.mem_cons_of_mem _ hm))
    simp [splitCh, hc, ihcs]

theorem splitCh_append_newline (p rest : List Char) (h : '\n' ∉ p) :
    splitCh (p ++ '\n' :: rest) = p :: splitCh rest := by
  induction p with
  | nil => simp [splitCh]
  | cons c cs ih =>
    have hc : ¬ c = '\n' := fun e => h (by simp [e])
    have ihcs := ih (fun hm => h (List.mem_cons_of_mem _ hm))
    simp only [List.cons_append, splitCh, if_neg hc]
    rw [List.append_eq, ihcs]

theorem splitCh_joinCh (ps : List (List Char)) (hne : ps ≠ [])
    (h : ∀ p ∈ ps, '\n' ∉ p) : splitCh (joinCh ps) = ps := by
  induction ps with
  | nil => exact absurd rfl hne
  | cons p ps ih =>
    cases ps with
    | nil => exact splitCh_no_newline p (h p (by simp))
    | cons q qs =>
      have hjoin : joinCh (p :: q :: qs) = p ++ '\n' :: joinCh (q :: qs) := rfl
      rw [hjoin, splitCh_append_newline p _ (h p (by simp)),
        ih (by simp) (fun l hl => h l (List.mem_cons_of_mem _ hl))]

theorem string_mk_data (s : String) : String.mk s.data = s := rfl

theorem splitLines_joinLines (ls : List String) (hne : ls ≠ [])
    (h : ∀ l ∈ ls, '\n' ∉ l.data) : splitLines (joinLines ls) = ls := by
  unfold splitLines joinLines
  rw [splitCh_joinCh (ls.map String.data) (by simpa using hne)
    (by intro p hp; rcases List.mem_map.mp hp with ⟨l, hl, rfl⟩; exact h l hl)]
  rw [List.map_map]
  have : (String.mk ∘ String.data) = id := by
    funext s
    exact string_mk_data s
  rw [this, List.map_id]

theorem splitLines_ne_nil (s : String) : splitLines s ≠ [] := by
  unfold splitLines
  simpa using splitCh_ne_nil s.data

theorem not_newline_mem_splitLines (s : String) :
    ∀ l ∈ splitLines s, '\n' ∉ l.data := by
  intro l hl
  unfold splitLines at hl
  rcases List.mem_map.mp hl with ⟨p, hp, rfl⟩
  exact not_newline_mem_splitCh s.data p hp

/-! ### Properties of masking -/

theorem maskLinesAux_length (s e : Nat) :
    ∀ n ls, (maskLinesAux s e n ls).length = List.length ls := by
  intro n ls
  induction ls generalizing n with
  | nil => rfl
  | cons l tl ih => simp [maskLinesAux, ih]

theorem maskLines_length (ls : List String) (r : Option EmbeddedMQLRegion) :
    (maskLines ls r).length = ls.length := by
  cases r with
  | none => simp [maskLines]
  | some r => exact maskLinesAux_length r.startLine r.endLine 0 ls

theorem mem_maskLinesAux (s e : Nat) :
    ∀ n ls, ∀ l ∈ maskLinesAux s e n ls, l = "" ∨ l ∈ ls := by
  intro n ls
  induction ls generalizing n with
  | nil => intro l hl; simp [maskLinesAux] at hl
  | cons x tl ih =>
    intro l hl
    simp only [maskLinesAux] at hl
    rcases List.mem_cons.mp hl with h | h
    · by_cases hc : s ≤ n ∧ n ≤ e
      · rw [if_pos hc] at h; right; simp [h]
      · rw [if_neg hc] at h; left; exact h
    · rcases ih (n+1) l h with h' | h'
      · left; exact h'
      · right; exact List.mem_cons_of_mem _ h'

theorem mem_maskLines (ls : List String) (r : Option EmbeddedMQLRegion) :
    ∀ l ∈ maskLines ls r, l = "" ∨ l ∈ ls := by
  cases r with
  | none =>
    intro l hl
    simp only [maskLines] at hl
    rcases List.mem_map.mp hl with ⟨x, _, rfl⟩
    left; rfl
  | some r => exact mem_maskLinesAux r.startLine r.endLine 0 ls

theorem maskLinesAux_getD (s e : Nat) :
    ∀ n k ls, (maskLinesAux s e n ls).getD k "" =
      if s ≤ n + k ∧ n + k ≤ e then List.getD ls k "" else "" := by
  intro n k ls
  induction ls generalizing n k with
  | nil =>
    simp only [maskLinesAux, List.getD]
    cases h : decide (s ≤ n + k ∧ n + k ≤ e) <;> simp_all
  | cons x tl ih =>
    cases k with
    | zero => simp [maskLinesAux, List.getD]
    | succ k =>
      simp only [maskLinesAux, List.getD_cons_succ]
      rw [ih (n+1) k]
      have harith : n + 1 + k = n + (k + 1) := by omega
      rw [harith]

/-- Masked documents have elements free of newline characters, so joining and
re-splitting them is the identity: the line list of a masked document is
exactly `maskLines` of the input's line list. -/
theorem splitLines_maskDocument (text : String) (r : Option EmbeddedMQLRegion) :
    splitLines (maskDocument text r) = maskLines (splitLines text) r := by
  unfold maskDocument
  apply splitLines_joinLines
  · intro hnil
    have := maskLines_length (splitLines text) r
    rw [hnil] at this
    exact splitLines_ne_nil text (List.length_eq_zero.mp this.symm)
  · intro l hl
    rcases mem_maskLines (splitLines text) r l hl with h | h
    · subst h; simp
    · exact not_newline_mem_splitLines text l h

theorem getD_map_empty (ls : List String) (k : Nat) :
    (ls.map (fun _ => "")).getD k "" = "" := by
  induction ls generalizing k with
  | nil => rfl
  | cons x tl ih =>
    cases k with
    | zero => rfl
    | succ k =>
      simp only [List.map_cons, List.getD_cons_succ]
      exact ih k

/-- C3: for every host text and optional region, the masked document splits
into exactly as many lines as the input, and line `n` of the output is the
input's line `n` when `n` lies in the region's inclusive span and the empty
string otherwise (in particular every line is empty when no region). -/
theorem maskDocument_linewise (text : String) (region : Option EmbeddedMQLRegion) (n : Nat) :
    (splitLines (maskDocument text region)).length = (splitLines text).length ∧
    (splitLines (maskDocument text region)).getD n "" =
      (match region with
       | none => ""
       | some r =>
         if r.startLine ≤ n ∧ n ≤ r.endLine then (splitLines text).getD n "" else "") := by
  rw [splitLines_maskDocument]
  refine ⟨maskLines_length _ _, ?_⟩
  cases region with
  | none => exact getD_map_empty _ n
  | some r =>
    have h := maskLinesAux_getD r.startLine r.endLine 0 n (splitLines text)
    simpa using h

/-- C3 witness: the scenario text with region `[2,3]`, evaluated at line 2. -/
theorem maskDocument_linewise_witness :
    (splitLines (maskDocument "name: x\nsource: |\n  a\n  b\nother: y\n" (some ⟨2, 3⟩))).length =
      (splitLines "name: x\nsource: |\n  a\n  b\nother: y\n").length ∧
    (splitLines (maskDocument "name: x\nsource: |\n  a\n  b\nother: y\n" (some ⟨2, 3⟩))).getD 2 "" =
      (splitLines "name: x\nsource: |\n  a\n  b\nother: y\n").getD 2 "" :=
  maskDocument_linewise "name: x\nsource: |\n  a\n  b\nother: y\n" (some ⟨2, 3⟩) 2

/-- C2: on the concrete scenario text, the detector finds exactly lines 2-3
and the masker keeps exactly those lines. -/
theorem scenario_detect_and_mask :
    detectMQLRegion "name: x\nsource: |\n  a\n  b\nother: y\n" = some ⟨2, 3⟩ ∧
    maskDocument "name: x\nsource: |\n  a\n  b\nother: y\n" (some ⟨2, 3⟩) = "\n\n  a\n  b\n\n" := by
  exact ⟨rfl, rfl⟩

theorem maskLinesAux_idem (s e : Nat) :
    ∀ n ls, maskLinesAux s e n (maskLinesAux s e n ls) = maskLinesAux s e n ls := by
  intro n ls
  induction ls generalizing n with
  | nil => rfl
  | cons x tl ih =>
    simp only [maskLinesAux, ih (n+1)]
    by_cases hc : s ≤ n ∧ n ≤ e
    · rw [if_pos hc]
    · rw [if_neg hc, if_neg hc]

theorem maskLines_idem (ls : List String) (r : Option EmbeddedMQLRegion) :
    maskLines (maskLines ls r) r = maskLines ls r := by
  cases r with
  | none => simp [maskLines]
  | some r => exact maskLinesAux_idem r.startLine r.endLine 0 ls

/-- C9: masking is idempotent — masking an already-masked document with the
same region returns it unchanged. -/
theorem maskDocument_idempotent (text : String) (region : Option EmbeddedMQLRegion) :
    maskDocument (maskDocument text region) region = maskDocument text region := by
  show joinLines (maskLines (splitLines (maskDocument text region)) region) = _
  rw [splitLines_maskDocument, maskLines_idem]
  rfl

/-! ### Properties of region detection -/

theorem le_scanLoop (ci : Nat) (rest : List String) :
    ∀ j e, e ≤ j → e ≤ scanLoop ci j e rest := by
  induction rest with
  | nil => intro j e h; simp [scanLoop]
  | cons l tl ih =>
    intro j e h
    simp only [scanLoop]
    by_cases hb : isBlankLine l = true
    · rw [if_pos hb]
      exact le_trans h (ih (j+1) j (Nat.le_succ j))
    · rw [if_neg hb]
      by_cases hlt : countLeadingWS l < ci
      · rw [if_pos hlt]
      · rw [if_neg hlt]
        exact le_trans h (ih (j+1) j (Nat.le_succ j))

theorem scanLoop_le (ci : Nat) (rest : List String) :
    ∀ j e B, e ≤ B → j + rest.length ≤ B + 1 → scanLoop ci j e rest ≤ B := by
  induction rest with
  | nil => intro j e B h _; simpa [scanLoop] using h
  | cons l tl ih =>
    intro j e B h hlen
    simp only [List.length_cons] at hlen
    have hj : j ≤ B := by omega
    have hlen' : j + 1 + tl.length ≤ B + 1 := by omega
    simp only [scanLoop]
    by_cases hb : isBlankLine l = true
    · rw [if_pos hb]; exact ih (j+1) j B hj hlen'
    · rw [if_neg hb]
      by_cases hlt : countLeadingWS l < ci
      · rw [if_pos hlt]; exact h
      · rw [if_neg hlt]; exact ih (j+1) j B hj hlen'

theorem detectFrom_bounds (rest : List String) :
    ∀ i r, detectFrom i rest = some r →
      i + 1 ≤ r.startLine ∧ r.startLine ≤ r.endLine ∧ r.endLine + 1 ≤ i + rest.length := by
  induction rest with
  | nil => intro i r h; simp [detectFrom] at h
  | cons l tl ih =>
    intro i r h
    simp only [detectFrom] at h
    split at h
    · have := ih (i+1) r h
      simp only [List.length_cons]
      omega
    · rename_i keyIndent hm
      split at h
      · exact absurd h (by simp)
      · rename_i htl
        have htl1 : 1 ≤ tl.length :=
          Nat.one_le_iff_ne_zero.mpr (fun h0 => htl (List.length_eq_zero.mp h0))
        split at h
        · rename_i hle
          have hupper : scanLoop (keyIndent + 2) (i + 1) (i + 1) tl ≤ i + tl.length :=
            scanLoop_le (keyIndent + 2) tl (i + 1) (i + 1) (i + tl.length)
              (by omega) (by omega)
          have hr : r = ⟨i + 1, scanLoop (keyIndent + 2) (i + 1) (i + 1) tl⟩ :=
            (Option.some_injective _ h).symm
          subst hr
          simp only [List.length_cons]
          exact ⟨le_refl _, hle, by omega⟩
        · have := ih (i+1) r h
          simp only [List.length_cons]
          omega

/-- C10: every region the detector returns on a text of `n` lines satisfies
`1 ≤ startLine ≤ endLine ≤ n - 1`; in particular the introducer line at
index `startLine - 1` is a valid line index. -/
theorem detectMQLRegion_bounds (text : String) (r : EmbeddedMQLRegion)
    (h : detectMQLRegion text = some r) :
    1 ≤ r.startLine ∧ r.startLine ≤ r.endLine ∧
    r.endLine + 1 ≤ (splitLines text).length ∧
    r.startLine - 1 < (splitLines text).length := by
  have := detectFrom_bounds (splitLines text) 0 r h
  omega

/-- C10 witness: the scenario text, whose detected region is `[2,3]` inside
its six lines. -/
theorem detectMQLRegion_bounds_witness :
    1 ≤ (2 : Nat) ∧ (2 : Nat) ≤ 3 ∧
    (3 : Nat) + 1 ≤ (splitLines "name: x\nsource: |\n  a\n  b\nother: y\n").length ∧
    (2 : Nat) - 1 < (splitLines "name: x\nsource: |\n  a\n  b\nother: y\n").length :=
  detectMQLRegion_bounds "name: x\nsource: |\n  a\n  b\nother: y\n" ⟨2, 3⟩ rfl

/-- C5 (code bug): the claim says a block whose first following line is a
non-blank line indented less than `contentIndent` yields no region, but the
guard at source line 88 (`endLine >= startLine`) is vacuously true because
`endLine` is initialised to `startLine`, so the code returns the region
`{startLine: 1, endLine: 1}` on `"source: |\nfoo"` — a region consisting of
the under-indented line itself.  (The early-return half of the claim does
hold: `detectMQLRegion "source: |" = none`.) -/
theorem detect_underindented_returns_region :
    detectMQLRegion "source: |\nfoo" = some ⟨1, 1⟩ ∧
    isBlankLine "foo" = false ∧ countLeadingWS "foo" < 2 ∧
    detectMQLRegion "source: |" = none := by
  exact ⟨rfl, rfl, by decide, rfl⟩

theorem scanLoop_included_append (ci : Nat) (xs : List String)
    (hxs : ∀ l ∈ xs, isBlankLine l = true ∨ ci ≤ countLeadingWS l) :
    ∀ j e rest, xs ≠ [] →
      scanLoop ci j e (xs ++ rest) = scanLoop ci (j + xs.length) (j + xs.length - 1) rest := by
  induction xs with
  | nil => intro j e rest hne; exact absurd rfl hne
  | cons x tl ih =>
    intro j e rest _
    have hx := hxs x (by simp)
    have hstep : scanLoop ci j e ((x :: tl) ++ rest) = scanLoop ci (j+1) j (tl ++ rest) := by
      simp only [List.cons_append, scanLoop, List.append_eq]
      rcases hx with hb | hind
      · rw [if_pos hb]
      · by_cases hb : isBlankLine x = true
        · rw [if_pos hb]
        · rw [if_neg hb, if_neg (by omega)]
    rw [hstep]
    by_cases htl : tl = []
    · subst htl; simp
    · rw [ih (fun l hl => hxs l (List.mem_cons_of_mem _ hl)) (j+1) j rest htl]
      have h1 : j + 1 + tl.length = j + (x :: tl).length := by
        simp only [List.length_cons]; omega
      rw [h1]

theorem scanLoop_stop (ci j e : Nat) (sib : String) (tail : List String)
    (hs : isBlankLine sib = false) (hind : countLeadingWS sib < ci) :
    scanLoop ci j e (sib :: tail) = e := by
  simp [scanLoop, hs, hind]

theorem detectFrom_append_nomatch (pre : List String)
    (hpre : ∀ l ∈ pre, matchSourceIntroducer l = none) :
    ∀ i rest, detectFrom i (pre ++ rest) = detectFrom (i + pre.length) rest := by
  induction pre with
  | nil => intro i rest; simp
  | cons x tl ih =>
    intro i rest
    have hx : matchSourceIntroducer x = none := hpre x (by simp)
    simp only [List.cons_append, detectFrom, hx, List.append_eq]
    rw [ih (fun l hl => hpre l (List.mem_cons_of_mem _ hl)) (i+1) rest]
    have h1 : i + 1 + tl.length = i + (x :: tl).length := by
      simp only [List.length_cons]; omega
    rw [h1]

theorem detectFrom_cons_match (i : Nat) (l : String) (tl : List String) (k : Nat)
    (hm : matchSourceIntroducer l = some k) (htl : tl ≠ [])
    (hguard : i + 1 ≤ scanLoop (k+2) (i+1) (i+1) tl) :
    detectFrom i (l :: tl) = some ⟨i+1, scanLoop (k+2) (i+1) (i+1) tl⟩ := by
  simp only [detectFrom, hm]
  rw [if_neg htl, if_pos hguard]

/-- C6 counterexample: on `"source: |\n  a\n\nother: y"` the detector returns
`endLine = 2`, which is the trailing blank line of the block, even though the
block is followed by a non-blank sibling line indented less than
`contentIndent`; the claim says `endLine` should be 1, the last non-blank
content line. -/
theorem detect_trailing_blank_counterexample :
    detectMQLRegion "source: |\n  a\n\nother: y" = some ⟨1, 2⟩ ∧
    isBlankLine ((splitLines "source: |\n  a\n\nother: y").getD 2 "") = true ∧
    isBlankLine ((splitLines "source: |\n  a\n\nother: y").getD 1 "") = false ∧
    isBlankLine ((splitLines "source: |\n  a\n\nother: y").getD 3 "") = false ∧
    countLeadingWS ((splitLines "source: |\n  a\n\nother: y").getD 3 "") < 2 := by
  exact ⟨rfl, rfl, rfl, rfl, by decide⟩

/-- C6 (amended): when the block's content lines are followed by one or more
blank lines and then a non-blank line indented less than `contentIndent`,
the returned `endLine` INCLUDES the trailing blank lines: blank lines
unconditionally advance `endLine` in the scan (source lines 70-73), so
`endLine` is the index of the last trailing blank line, not of the last
non-blank content line. -/
theorem detectMQLRegion_includes_trailing_blanks
    (text : String) (pre content blanks tail : List String) (introL sib : String) (k : Nat)
    (hsplit : splitLines text = pre ++ introL :: (content ++ (blanks ++ sib :: tail)))
    (hpre : ∀ l ∈ pre, matchSourceIntroducer l = none)
    (hintro : matchSourceIntroducer introL = some k)
    (hcontent : ∀ l ∈ content, isBlankLine l = true ∨ k + 2 ≤ countLeadingWS l)
    (hblanks : ∀ l ∈ blanks, isBlankLine l = true)
    (hsib : isBlankLine sib = false) (hsibind : countLeadingWS sib < k + 2)
    (hblanksne : blanks ≠ []) :
    detectMQLRegion text =
      some ⟨pre.length + 1, pre.length + content.length + blanks.length⟩ := by
  unfold detectMQLRegion
  rw [hsplit, detectFrom_append_nomatch pre hpre 0]
  have hrest : content ++ (blanks ++ sib :: tail) = (content ++ blanks) ++ (sib :: tail) :=
    (List.append_assoc content blanks (sib :: tail)).symm
  have hxs : ∀ l ∈ content ++ blanks, isBlankLine l = true ∨ k + 2 ≤ countLeadingWS l := by
    intro l hl
    rcases List.mem_append.mp hl with h | h
    · exact hcontent l h
    · exact Or.inl (hblanks l h)
  have hxsne : content ++ blanks ≠ [] := by
    intro h
    exact hblanksne (List.append_eq_nil.mp h).2
  have hLpos : 1 ≤ (content ++ blanks).length := by
    rcases List.exists_cons_of_ne_nil hxsne with ⟨y, ys, hy⟩
    simp [hy]
  have hscan : scanLoop (k+2) (pre.length+1) (pre.length+1) (content ++ (blanks ++ sib :: tail))
      = pre.length + (content ++ blanks).length := by
    rw [hrest, scanLoop_included_append (k+2) (content ++ blanks) hxs (pre.length+1)
          (pre.length+1) (sib :: tail) hxsne,
        scanLoop_stop _ _ _ _ _ hsib hsibind]
    omega
  have htlne : content ++ (blanks ++ sib :: tail) ≠ [] := by
    rw [hrest]; simp
  rw [Nat.zero_add,
    detectFrom_cons_match pre.length introL _ k hintro htlne (by rw [hscan]; omega), hscan]
  have : pre.length + (content ++ blanks).length = pre.length + content.length + blanks.length := by
    simp only [List.length_append]; omega
  rw [this]

/-- C6 witness: the amended statement at the counterexample input, where
`content = ["  a"]`, `blanks = [""]` and the sibling is `"other: y"`. -/
theorem detect_trailing_blanks_witness :
    detectMQLRegion "source: |\n  a\n\nother: y" = some ⟨1, 2⟩ :=
  detectMQLRegion_includes_trailing_blanks "source: |\n  a\n\nother: y"
    [] ["  a"] [""] [] "source: |" "other: y" 0
    rfl (by decide) rfl (by decide) (by decide) rfl (by decide) (by decide)

/-! ### Properties of the lifecycle middleware -/

theorem getCached_not_cached (st : MQLState) (doc : Doc) (h : st.cache doc.uri = none) :
    getEmbeddedMQLCachedDocumentData st doc =
      (⟨doc.version, detectMQLRegion doc.text, maskDocument doc.text (detectMQLRegion doc.text)⟩,
       { st with cache := fun u =>
           if u = doc.uri then
             some ⟨doc.version, detectMQLRegion doc.text,
                   maskDocument doc.text (detectMQLRegion doc.text)⟩
           else st.cache u }) := by
  unfold getEmbeddedMQLCachedDocumentData
  rw [h]

theorem getCached_stale (st : MQLState) (doc : Doc) (c : EmbeddedMQLDocumentCache)
    (h : st.cache doc.uri = some c) (hv : ¬ c.version = doc.version) :
    getEmbeddedMQLCachedDocumentData st doc =
      (⟨doc.version, detectMQLRegion doc.text, maskDocument doc.text (detectMQLRegion doc.text)⟩,
       { st with cache := fun u =>
           if u = doc.uri then
             some ⟨doc.version, detectMQLRegion doc.text,
                   maskDocument doc.text (detectMQLRegion doc.text)⟩
           else st.cache u }) := by
  unfold getEmbeddedMQLCachedDocumentData
  rw [h]
  simp [hv]

theorem getCached_hit (st : MQLState) (doc : Doc) (c : EmbeddedMQLDocumentCache)
    (h : st.cache doc.uri = some c) (hv : c.version = doc.version) :
    getEmbeddedMQLCachedDocumentData st doc = (c, st) := by
  unfold getEmbeddedMQLCachedDocumentData
  rw [h]
  simp [hv]

theorem didOpenH_yaml_no_region (st : MQLState) (uri t : String) (v : Nat)
    (ho : st.openedDocs uri = false) (hc : st.cache uri = none)
    (hr : detectMQLRegion t = none) :
    didOpenH st ⟨uri, "yaml", v, t⟩ =
      ({ st with cache := fun u =>
           if u = uri then some ⟨v, none, maskDocument t none⟩ else st.cache u },
       []) := by
  have g := getCached_not_cached st ⟨uri, "yaml", v, t⟩ hc
  rw [hr] at g
  simp [didOpenH, g, ho]

theorem didChangeH_yaml_first_open (st : MQLState) (uri t : String) (v : Nat)
    (r : EmbeddedMQLRegion) (c : EmbeddedMQLDocumentCache)
    (ho : st.openedDocs uri = false) (hc : st.cache uri = some c)
    (hv : ¬ c.version = v) (hr : detectMQLRegion t = some r) :
    didChangeH st ⟨uri, "yaml", v, t⟩ =
      ({ cache := fun u =>
           if u = uri then some ⟨v, some r, maskDocument t (some r)⟩ else st.cache u,
         openedDocs := fun u => if u = uri then true else st.openedDocs u },
       [.synOpen uri v (maskDocument t (some r))]) := by
  have g := getCached_stale st ⟨uri, "yaml", v, t⟩ c hc hv
  rw [hr] at g
  simp [didChangeH, g, ho]

theorem didChangeH_yaml_change (st : MQLState) (uri t : String) (v : Nat)
    (r : EmbeddedMQLRegion) (c : EmbeddedMQLDocumentCache)
    (ho : st.openedDocs uri = true) (hc : st.cache uri = some c)
    (hv : ¬ c.version = v) (hr : detectMQLRegion t = some r) :
    didChangeH st ⟨uri, "yaml", v, t⟩ =
      ({ st with cache := fun u =>
           if u = uri then some ⟨v, some r, maskDocument t (some r)⟩ else st.cache u },
       [.synChange uri v (maskDocument t (some r))]) := by
  have g := getCached_stale st ⟨uri, "yaml", v, t⟩ c hc hv
  rw [hr] at g
  simp [didChangeH, g, ho]

theorem didCloseH_yaml (st : MQLState) (uri t : String) (v : Nat) :
    didCloseH st ⟨uri, "yaml", v, t⟩ =
      ({ cache := fun u => if u = uri then none else st.cache u,
         openedDocs := fun u => if u = uri then false else st.openedDocs u },
       [.fwdClose uri]) := by
  simp [didCloseH]

/-- C1: on one YAML document identity, for the host-event sequence
open (no region) → change (region appears) → change (region persists) →
close, the middleware emits exactly one synthetic didOpen, during the second
event and carrying the masked text, exactly one synthetic didChange, during
the third event, nothing at the first event (in particular no close before
the close event), and after the close event neither the cache map nor the
opened-documents set contains the identity. -/
theorem lifecycle_open_change_change_close
    (st0 : MQLState) (uri t0 t1 t2 t3 : String) (v0 v1 v2 v3 : Nat)
    (r1 r2 : EmbeddedMQLRegion)
    (hc : st0.cache uri = none) (ho : st0.openedDocs uri = false)
    (h0 : detectMQLRegion t0 = none)
    (h1 : detectMQLRegion t1 = some r1)
    (h2 : detectMQLRegion t2 = some r2)
    (hv01 : v0 < v1) (hv12 : v1 < v2) :
    (didOpenH st0 ⟨uri, "yaml", v0, t0⟩).2 = [] ∧
    (didChangeH (didOpenH st0 ⟨uri, "yaml", v0, t0⟩).1 ⟨uri, "yaml", v1, t1⟩).2 =
      [.synOpen uri v1 (maskDocument t1 (some r1))] ∧
    (didChangeH (didChangeH (didOpenH st0 ⟨uri, "yaml", v0, t0⟩).1 ⟨uri, "yaml", v1, t1⟩).1
        ⟨uri, "yaml", v2, t2⟩).2 =
      [.synChange uri v2 (maskDocument t2 (some r2))] ∧
    (didCloseH (didChangeH (didChangeH (didOpenH st0 ⟨uri, "yaml", v0, t0⟩).1
        ⟨uri, "yaml", v1, t1⟩).1 ⟨uri, "yaml", v2, t2⟩).1 ⟨uri, "yaml", v3, t3⟩).2 =
      [.fwdClose uri] ∧
    (didCloseH (didChangeH (didChangeH (didOpenH st0 ⟨uri, "yaml", v0, t0⟩).1
        ⟨uri, "yaml", v1, t1⟩).1 ⟨uri, "yaml", v2, t2⟩).1 ⟨uri, "yaml", v3, t3⟩).1.cache uri =
      none ∧
    (didCloseH (didChangeH (didChangeH (didOpenH st0 ⟨uri, "yaml", v0, t0⟩).1
        ⟨uri, "yaml", v1, t1⟩).1 ⟨uri, "yaml", v2, t2⟩).1 ⟨uri, "yaml", v3, t3⟩).1.openedDocs uri =
      false := by
  have e1 := didOpenH_yaml_no_region st0 uri t0 v0 ho hc h0
  have hst1c : (didOpenH st0 ⟨uri, "yaml", v0, t0⟩).1.cache uri =
      some ⟨v0, none, maskDocument t0 none⟩ := by
    rw [e1]
    simp
  have hst1o : (didOpenH st0 ⟨uri, "yaml", v0, t0⟩).1.openedDocs uri = false := by
    rw [e1]
    exact ho
  have e2 := didChangeH_yaml_first_open (didOpenH st0 ⟨uri, "yaml", v0, t0⟩).1 uri t1 v1 r1
    ⟨v0, none, maskDocument t0 none⟩ hst1o hst1c (Nat.ne_of_lt hv01) h1
  have hst2c : (didChangeH (didOpenH st0 ⟨uri, "yaml", v0, t0⟩).1 ⟨uri, "yaml", v1, t1⟩).1.cache
      uri = some ⟨v1, some r1, maskDocument t1 (some r1)⟩ := by
    rw [e2]
    simp
  have hst2o : (didChangeH (didOpenH st0 ⟨uri, "yaml", v0, t0⟩).1
      ⟨uri, "yaml", v1, t1⟩).1.openedDocs uri = true := by
    rw [e2]
    simp
  have e3 := didChangeH_yaml_change
    (didChangeH (didOpenH st0 ⟨uri, "yaml", v0, t0⟩).1 ⟨uri, "yaml", v1, t1⟩).1 uri t2 v2 r2
    ⟨v1, some r1, maskDocument t1 (some r1)⟩ hst2o hst2c (Nat.ne_of_lt hv12) h2
  have e4 := didCloseH_yaml
    (didChangeH (didChangeH (didOpenH st0 ⟨uri, "yaml", v0, t0⟩).1 ⟨uri, "yaml", v1, t1⟩).1
      ⟨uri, "yaml", v2, t2⟩).1 uri t3 v3
  refine ⟨?_, ?_, ?_, ?_, ?_, ?_⟩
  · rw [e1]
  · rw [e2]
  · rw [e3]
  · rw [e4]
  · rw [e4]
    simp
  · rw [e4]
    simp

/-- C1 witness: a concrete run from the empty state on uri `"u"`, with texts
`"k: v"` (no region), `"source: |\n  x"` and `"source: |\n  y"` (region
`[1,1]`), versions 0,1,2. -/
theorem lifecycle_witness :
    (didOpenH emptyMQLState ⟨"u", "yaml", 0, "k: v"⟩).2 = [] ∧
    (didChangeH (didOpenH emptyMQLState ⟨"u", "yaml", 0, "k: v"⟩).1
        ⟨"u", "yaml", 1, "source: |\n  x"⟩).2 = [.synOpen "u" 1 "\n  x"] ∧
    (didChangeH (didChangeH (didOpenH emptyMQLState ⟨"u", "yaml", 0, "k: v"⟩).1
        ⟨"u", "yaml", 1, "source: |\n  x"⟩).1 ⟨"u", "yaml", 2, "source: |\n  y"⟩).2 =
      [.synChange "u" 2 "\n  y"] ∧
    (didCloseH (didChangeH (didChangeH (didOpenH emptyMQLState ⟨"u", "yaml", 0, "k: v"⟩).1
        ⟨"u", "yaml", 1, "source: |\n  x"⟩).1 ⟨"u", "yaml", 2, "source: |\n  y"⟩).1
        ⟨"u", "yaml", 3, ""⟩).2 = [.fwdClose "u"] ∧
    (didCloseH (didChangeH (didChangeH (didOpenH emptyMQLState ⟨"u", "yaml", 0, "k: v"⟩).1
        ⟨"u", "yaml", 1, "source: |\n  x"⟩).1 ⟨"u", "yaml", 2, "source: |\n  y"⟩).1
        ⟨"u", "yaml", 3, ""⟩).1.cache "u" = none ∧
    (didCloseH (didChangeH (didChangeH (didOpenH emptyMQLState ⟨"u", "yaml", 0, "k: v"⟩).1
        ⟨"u", "yaml", 1, "source: |\n  x"⟩).1 ⟨"u", "yaml", 2, "source: |\n  y"⟩).1
        ⟨"u", "yaml", 3, ""⟩).1.openedDocs "u" = false :=
  lifecycle_open_change_change_close emptyMQLState "u" "k: v" "source: |\n  x"
    "source: |\n  y" "" 0 1 2 3 ⟨1, 1⟩ ⟨1, 1⟩ rfl rfl rfl rfl rfl (by decide) (by decide)

/-! ### Properties of the formatting response transformer -/

/-- C4 counterexample: a formatting response with exactly one edit, processed
for a YAML document whose cache holds no region (text `"hello"` has none),
raises a TypeError — source line 317 dereferences `region.startLine` through
the non-null assertion of line 308 — contradicting the claim that no error is
raised in this state. -/
theorem formatting_no_region_error_counterexample :
    (transformFormattingResponse emptyMQLState ⟨"u", "yaml", 0, "hello"⟩
      (some [⟨⟨⟨0, 0⟩, ⟨0, 0⟩⟩, "x"⟩])).1 = .error () := rfl

/-- C4 (amended): when a formatting response is processed for a YAML document
while no region is cached, the transformer never produces an edit — a null or
empty response is returned unchanged, a response with two or more edits
yields no edit and no error, but a response with exactly one edit raises a
TypeError instead of failing soft. -/
theorem formatting_no_region_behavior
    (st : MQLState) (doc : Doc) (response : Option (List TextEdit))
    (hyaml : doc.languageId = "yaml")
    (hreg : (getEmbeddedMQLCachedDocumentData st doc).1.region = none) :
    (transformFormattingResponse st doc response).1 =
      (match response with
       | none => .ok none
       | some [] => .ok (some [])
       | some [_] => .error ()
       | some (_ :: _ :: _) => .ok none) := by
  cases response with
  | none => rfl
  | some edits =>
    cases edits with
    | nil => rfl
    | cons a tl =>
      simp only [transformFormattingResponse]
      rw [if_neg (by simp), if_pos hyaml]
      cases tl with
      | nil =>
        rw [hreg]
      | cons b tl2 =>
        rw [hreg]

/-- C4 witness: the amended statement evaluated on the empty state, a
region-free YAML document and a two-edit response: no edit and no error. -/
theorem formatting_no_region_witness :
    (transformFormattingResponse emptyMQLState ⟨"u", "yaml", 0, "hello"⟩
      (some [⟨⟨⟨0, 0⟩, ⟨0, 0⟩⟩, "x"⟩, ⟨⟨⟨0, 0⟩, ⟨0, 0⟩⟩, "y"⟩])).1 = .ok none :=
  formatting_no_region_behavior emptyMQLState ⟨"u", "yaml", 0, "hello"⟩
    (some [⟨⟨⟨0, 0⟩, ⟨0, 0⟩⟩, "x"⟩, ⟨⟨⟨0, 0⟩, ⟨0, 0⟩⟩, "y"⟩]) rfl rfl

/-- C7: for a YAML document whose cached region has an introducer line
indented with two spaces, a one-edit response with newText `"a\nb"` is
transformed into a single edit with newText `"    a\n    b"` (introducer
indent plus the fixed two-space increment on every non-blank line) whose
range spans from `(startLine, 0)` to `(endLine, length of that line)` in
host coordinates. -/
theorem formatting_reindent_two_space
    (st : MQLState) (doc : Doc) (ed : TextEdit) (reg : EmbeddedMQLRegion)
    (introLine endLineText : String)
    (hyaml : doc.languageId = "yaml")
    (hreg : (getEmbeddedMQLCachedDocumentData st doc).1.region = some reg)
    (hintro : lineAt doc ((reg.startLine : Int) - 1) = some introLine)
    (hind : leadingWSStr introLine = "  ")
    (hend : lineAt doc (reg.endLine : Int) = some endLineText)
    (hnew : ed.newText = "a\nb") :
    (transformFormattingResponse st doc (some [ed])).1 =
      .ok (some [⟨⟨⟨reg.startLine, 0⟩, ⟨reg.endLine, endLineText.length⟩⟩,
                 "    a\n    b"⟩]) := by
  simp only [transformFormattingResponse]
  rw [if_neg (show ¬([ed] = []) by simp), if_pos hyaml]
  simp only [hreg, hintro, hend, hnew, hind]
  rfl

/-- C7 witness: a concrete YAML document `"a: b\n  source: |\n    x\n"` with
region `[2,3]` and introducer indent `"  "`, and the one-edit response
`"a\nb"`. -/
theorem formatting_reindent_witness :
    (transformFormattingResponse emptyMQLState ⟨"u", "yaml", 0, "a: b\n  source: |\n    x\n"⟩
      (some [⟨⟨⟨0, 0⟩, ⟨0, 0⟩⟩, "a\nb"⟩])).1 =
      .ok (some [⟨⟨⟨2, 0⟩, ⟨3, 0⟩⟩, "    a\n    b"⟩]) :=
  formatting_reindent_two_space emptyMQLState ⟨"u", "yaml", 0, "a: b\n  source: |\n    x\n"⟩
    ⟨⟨⟨0, 0⟩, ⟨0, 0⟩⟩, "a\nb"⟩ ⟨2, 3⟩ "  source: |" "" rfl rfl rfl rfl rfl rfl

/-- C8: for a YAML document with a cached region, a service response holding
zero edits or two-or-more edits produces no edit (the zero-edit response is
returned as-is, two or more edits yield no edit) and never an error. -/
theorem formatting_malformed_response_no_edit
    (st : MQLState) (doc : Doc) (edits : List TextEdit) (reg : EmbeddedMQLRegion)
    (hyaml : doc.languageId = "yaml")
    (hreg : (getEmbeddedMQLCachedDocumentData st doc).1.region = some reg)
    (hlen : edits.length = 0 ∨ 2 ≤ edits.length) :
    (transformFormattingResponse st doc (some edits)).1 = .ok (some []) ∨
    (transformFormattingResponse st doc (some edits)).1 = .ok none := by
  cases edits with
  | nil => left; rfl
  | cons a tl =>
    cases tl with
    | nil => rcases hlen with h | h <;> simp at h
    | cons b tl2 =>
      right
      simp only [transformFormattingResponse]
      rw [if_neg (show ¬(a :: b :: tl2 = []) by simp), if_pos hyaml]
      simp only [hreg]

/-- C8 witness: a two-edit response for a YAML document whose text
`"source: |\n  x"` has the cached region `[1,1]`: no edit results. -/
theorem formatting_malformed_witness :
    (transformFormattingResponse emptyMQLState ⟨"u", "yaml", 0, "source: |\n  x"⟩
      (some [⟨⟨⟨0, 0⟩, ⟨0, 0⟩⟩, "p"⟩, ⟨⟨⟨0, 0⟩, ⟨0, 0⟩⟩, "q"⟩])).1 = .ok (some []) ∨
    (transformFormattingResponse emptyMQLState ⟨"u", "yaml", 0, "source: |\n  x"⟩
      (some [⟨⟨⟨0, 0⟩, ⟨0, 0⟩⟩, "p"⟩, ⟨⟨⟨0, 0⟩, ⟨0, 0⟩⟩, "q"⟩])).1 = .ok none :=
  formatting_malformed_response_no_edit emptyMQLState ⟨"u", "yaml", 0, "source: |\n  x"⟩
    [⟨⟨⟨0, 0⟩, ⟨0, 0⟩⟩, "p"⟩, ⟨⟨⟨0, 0⟩, ⟨0, 0⟩⟩, "q"⟩] ⟨1, 1⟩ rfl rfl (Or.inr (by decide))
